import Mathlib

/-!
Shallow embedding of the cache subsystem of the getfileicon repository:
`src/caches/png_cache.rs`, `src/caches/easy_png_cache.rs` and
`src/caches/utils/mod.rs`.

Modelling conventions:
* `Instant` is modelled as a natural number of seconds; every operation that
  reads the clock takes the current time `now : ℕ` as an explicit argument.
  `Instant::duration_since` saturates at zero, matching truncated natural
  subtraction.
* The `HashMap` store is modelled as an association list `List (K × CacheEntry A)`
  whose key column is duplicate-free in every reachable state.
* The external loader (`Image::try_new_from_file`) is modelled by an
  `Option A` argument: `some img` for a successful load, `none` for a failure.
* Each `get` call and each sweeper tick is executed atomically; the lock
  protocol itself is embedded separately as the sequence of lock events each
  code path performs (see `pngGetLockEvents` and friends).
* `u32` counters are modelled as `ℕ`; an overflowing `access_count += 1` is a
  panic in a checked build and is unreachable in any of the behaviours the
  claims quantify over.
-/

set_option linter.unusedVariables false

/-- Association-list model of `HashMap::get`: the value stored at the first
occurrence of the key. -/
def lookupKey {K V : Type} [DecidableEq K] : List (K × V) → K → Option V
  | [], _ => none
  | p :: ps, k => if p.1 = k then some p.2 else lookupKey ps k

/-- Association-list model of `HashMap::remove` (a hash map holds each key at
most once, so removing every occurrence agrees with it on well-formed maps). -/
def removeKey {K V : Type} [DecidableEq K] : List (K × V) → K → List (K × V)
  | [], _ => []
  | p :: ps, k => if p.1 = k then removeKey ps k else p :: removeKey ps k

/-- The `if let Some(pos) = queue.iter().position(|x| x == &key)` followed by
`queue.remove(pos)` step of `EvictionQueue::update`: remove the first
occurrence of the key, leave the list unchanged when the key is absent. -/
def removeFirst {K : Type} [DecidableEq K] : List K → K → List K
  | [], _ => []
  | a :: qs, k => if a = k then qs else a :: removeFirst qs k

/-- Structure `CacheEntry` from `png_cache.rs` / `easy_png_cache.rs`: one cached image
plus its access metadata. The image type `A` is opaque to the cache. -/
structure CacheEntry (A : Type) where
  image : A
  access_count : ℕ
  last_accessed : ℕ
deriving DecidableEq

/-- Structure `CacheKey` from `png_cache.rs`: a path plus the requested dimensions. -/
structure CacheKey where
  path : String
  width : ℕ
  height : ℕ
deriving DecidableEq

namespace PngCacheFile

/-- The `EvictionQueue` declared privately inside `png_cache.rs` (lines 21-47).
The source fixes the element type to `png_cache::CacheKey`; the algorithm never
depends on the key type, which is a parameter here so the same definition also
serves concrete instantiations. -/
structure EvictionQueue (K : Type) where
  queue : List K
  max_size : ℕ
deriving DecidableEq

/-- Constructor `EvictionQueue::new` from `png_cache.rs` (the `with_capacity` allocation
hint has no observable content). -/
def EvictionQueue.new (K : Type) (max : ℕ) : EvictionQueue K := ⟨[], max⟩

/-- Method `EvictionQueue::update` from `png_cache.rs`: remove any prior occurrence of
the key, pop the front when `len >= max_size` still holds, then push the key to
the back. -/
def EvictionQueue.update {K : Type} [DecidableEq K] (s : EvictionQueue K) (k : K) :
    EvictionQueue K :=
  let q1 := removeFirst s.queue k
  let q2 := if s.max_size ≤ q1.length then q1.tail else q1
  ⟨q2 ++ [k], s.max_size⟩

/-- Method `EvictionQueue::get_oldest` from `png_cache.rs`: peek the front element. -/
def EvictionQueue.get_oldest {K : Type} (s : EvictionQueue K) : Option K :=
  s.queue.head?

end PngCacheFile

namespace CacheUtils

/-- The generic `EvictionQueue` from `src/caches/utils/mod.rs` (lines 3-9). -/
structure EvictionQueue (K : Type) where
  queue : List K
  max_size : ℕ
deriving DecidableEq

/-- Constructor `EvictionQueue::new` from `utils/mod.rs`. -/
def EvictionQueue.new (K : Type) (max : ℕ) : EvictionQueue K := ⟨[], max⟩

/-- Method `EvictionQueue::update` from `utils/mod.rs` (lines 22-30): remove any prior
occurrence of the key, pop the front when `len >= max_size` still holds, then
push the key to the back. -/
def EvictionQueue.update {K : Type} [DecidableEq K] (s : EvictionQueue K) (k : K) :
    EvictionQueue K :=
  let q1 := removeFirst s.queue k
  let q2 := if s.max_size ≤ q1.length then q1.tail else q1
  ⟨q2 ++ [k], s.max_size⟩

/-- Method `EvictionQueue::get_oldest` from `utils/mod.rs` (lines 32-34). -/
def EvictionQueue.get_oldest {K : Type} (s : EvictionQueue K) : Option K :=
  s.queue.head?

end CacheUtils

/-- The state owned by a `PngCache` (or, with `K := String`, an
`EasyPngCache`): the guarded store, the guarded eviction queue and the fixed
capacity. The locks themselves are modelled separately by the lock-event
embedding below; each public operation runs atomically on this state. -/
structure PngCache (K A : Type) where
  cache : List (K × CacheEntry A)
  eviction_queue : PngCacheFile.EvictionQueue K
  max_size : ℕ
deriving DecidableEq

/-- Constructor `PngCache::new(max_size)`: empty store, empty eviction queue with the same
capacity, the sweeper task spawned (its ticks appear as `sweepTick` steps of
`Reach`). -/
def PngCache.new (K A : Type) (max : ℕ) : PngCache K A :=
  ⟨[], ⟨[], max⟩, max⟩

/-- What one `PngCache::get` call returns: the optional artifact handed to the
caller, the cache state after the call, and whether the external loader
(`Image::try_new_from_file`) was invoked during the call. -/
structure GetResult (K A : Type) where
  result : Option A
  state : PngCache K A
  loaderInvoked : Bool
deriving DecidableEq

/-- Model of the entry mutation in the hit path of `PngCache::get`
(`entry.access_count += 1; entry.last_accessed = Instant::now()` under
`cache.get_mut(&key)`): update the entry at the first occurrence of the key,
no-op when the key is absent. -/
def touchKey {K A : Type} [DecidableEq K] :
    List (K × CacheEntry A) → K → ℕ → List (K × CacheEntry A)
  | [], _, _ => []
  | p :: ps, k, now =>
    if p.1 = k then (p.1, ⟨p.2.image, p.2.access_count + 1, now⟩) :: ps
    else p :: touchKey ps k now

/-- Model of `HashMap::insert`: overwrite any prior entry for the key. -/
def insertEntry {K A : Type} [DecidableEq K]
    (st : List (K × CacheEntry A)) (k : K) (e : CacheEntry A) :
    List (K × CacheEntry A) :=
  removeKey st k ++ [(k, e)]

/-- Method `PngCache::get` from `png_cache.rs` (lines 78-167), executed atomically:
first a read-lock lookup; on a hit, re-acquire both write locks
(store first, queue second), bump the entry's metadata and update the queue,
returning the image cloned under the read lock; on a miss, acquire both write
locks, re-check the store (the double-checked pattern), invoke the loader, and
on success evict the key reported by `get_oldest` when the store is full before
inserting the new entry and updating the queue. A loader failure returns
`none` and leaves the state untouched. `EasyPngCache::get` from
`easy_png_cache.rs` is the same algorithm at `K := String` with the
recommended-size loader. -/
def PngCache.get {K A : Type} [DecidableEq K]
    (s : PngCache K A) (k : K) (now : ℕ) (loader : Option A) : GetResult K A :=
  match lookupKey s.cache k with
  | some entry =>
      ⟨some entry.image,
       ⟨touchKey s.cache k now, s.eviction_queue.update k, s.max_size⟩,
       false⟩
  | none =>
      match lookupKey s.cache k with
      | some entry => ⟨some entry.image, s, false⟩
      | none =>
          match loader with
          | some img =>
              let cache1 :=
                if s.max_size ≤ s.cache.length then
                  match s.eviction_queue.get_oldest with
                  | some oldKey => removeKey s.cache oldKey
                  | none => s.cache
                else s.cache
              ⟨some img,
               ⟨insertEntry cache1 k ⟨img, 1, now⟩, s.eviction_queue.update k,
                s.max_size⟩,
               true⟩
          | none => ⟨none, s, true⟩

/-- Method `PngCache::cleanup_old_entries` from `png_cache.rs` (lines 191-215): under
a read lock, collect every key whose entry has been idle for at least 3600
seconds; if any were collected, remove each of them under the write lock. -/
def cleanup_old_entries {K A : Type} [DecidableEq K]
    (st : List (K × CacheEntry A)) (now : ℕ) : List (K × CacheEntry A) :=
  let keysToRemove :=
    (st.filter (fun p => decide (3600 ≤ now - p.2.last_accessed))).map Prod.fst
  if keysToRemove.isEmpty then st
  else keysToRemove.foldl (fun acc k => removeKey acc k) st

/-- One tick of the background sweeper spawned by `PngCache::new`: it runs
`cleanup_old_entries` on the store and never touches the eviction queue. -/
def PngCache.sweepTick {K A : Type} [DecidableEq K]
    (s : PngCache K A) (now : ℕ) : PngCache K A :=
  ⟨cleanup_old_entries s.cache now, s.eviction_queue, s.max_size⟩

/-- Method `PngCache::get_stats` (lines 170-181): read the entry's metadata under a
read lock; the state component records that the call leaves the cache as it
found it. -/
def PngCache.get_stats {K A : Type} [DecidableEq K]
    (s : PngCache K A) (k : K) : Option (ℕ × ℕ) × PngCache K A :=
  ((lookupKey s.cache k).map (fun e => (e.access_count, e.last_accessed)), s)

/-- Method `PngCache::len` (lines 183-185). -/
def PngCache.len {K A : Type} (s : PngCache K A) : ℕ × PngCache K A :=
  (s.cache.length, s)

/-- Method `PngCache::is_empty` (lines 187-189). -/
def PngCache.is_empty {K A : Type} (s : PngCache K A) : Bool × PngCache K A :=
  (s.cache.isEmpty, s)

/-- Reachable cache states: the state produced by `PngCache::new(max)` followed
by any interleaving of atomic `get` calls (with arbitrary keys and loader
outcomes) and sweeper ticks, at non-decreasing clock readings. The second
index is the clock value of the latest step. -/
inductive Reach {K A : Type} [DecidableEq K] (max : ℕ) : PngCache K A → ℕ → Prop
  | new : Reach max (PngCache.new K A max) 0
  | get {s : PngCache K A} {t now : ℕ} {k : K} {loader : Option A} :
      Reach max s t → t ≤ now → Reach max ((s.get k now loader).state) now
  | sweep {s : PngCache K A} {t now : ℕ} :
      Reach max s t → t ≤ now → Reach max (s.sweepTick now) now

/-- The concrete scenario of spec §8 at capacity 2 (keys `A`,`B`,`C` rendered
as `0`,`1`,`2`, an always-succeeding loader): `get A`, `get B`, `get A`,
`get C`, `get B`. -/
def c2Run : PngCache ℕ ℕ :=
  ((((((PngCache.new ℕ ℕ 2).get 0 0 (some 10)).state.get 1 1
      (some 11)).state.get 0 2 (some 10)).state.get 2 3
      (some 12)).state.get 1 4 (some 11)).state

/-- The two lockable resources of the cache subsystem. -/
inductive LockRes : Type
  | lstore
  | lqueue
deriving DecidableEq

/-- One lock operation performed by a code path. -/
inductive LockEvt : Type
  | acqRead (r : LockRes)
  | acqWrite (r : LockRes)
  | relLock (r : LockRes)
deriving DecidableEq

/-- The resource an event touches. -/
def LockEvt.res : LockEvt → LockRes
  | .acqRead r => r
  | .acqWrite r => r
  | .relLock r => r

/-- Lock events of every path through `PngCache::get` (png_cache.rs 92-167),
in program order: the initial read-lock probe of the store is released at the
end of its block; afterwards every path (hit, double-check hit, miss-load,
load-failure) acquires the store write lock and then the queue write lock, and
drops them in reverse declaration order when the function returns.
`EasyPngCache::get` (easy_png_cache.rs 52-128) performs the identical
sequence. -/
def pngGetLockEvents : List LockEvt :=
  [.acqRead .lstore, .relLock .lstore,
   .acqWrite .lstore, .acqWrite .lqueue,
   .relLock .lqueue, .relLock .lstore]

/-- Lock events of `cleanup_old_entries` (png_cache.rs 191-215) when the
collected key set is non-empty: a read lock on the store, released, then a
write lock on the store, released. The queue lock is never taken. -/
def sweeperLockEvents : List LockEvt :=
  [.acqRead .lstore, .relLock .lstore,
   .acqWrite .lstore, .relLock .lstore]

/-- Lock events of `cleanup_old_entries` when nothing expired: only the read
probe. -/
def sweeperLockEventsNoremove : List LockEvt :=
  [.acqRead .lstore, .relLock .lstore]

/-- Checks the store-before-queue discipline along one code path: every store
acquisition happens with no lock held, and every queue acquisition happens
while exactly the store lock is held. `held` is the set of currently held
resources, innermost first. -/
def lockOrderOk : List LockRes → List LockEvt → Bool
  | _, [] => true
  | held, e :: rest =>
    match e with
    | .acqRead r =>
        (if r = .lqueue then decide (held = [.lstore]) else decide (held = []))
          && lockOrderOk (r :: held) rest
    | .acqWrite r =>
        (if r = .lqueue then decide (held = [.lstore]) else decide (held = []))
          && lockOrderOk (r :: held) rest
    | .relLock r => lockOrderOk (held.erase r) rest

/-! Basic lemmas about the association-list and queue primitives. -/

theorem lookupKey_eq_none {K V : Type} [DecidableEq K] {st : List (K × V)} {k : K} :
    lookupKey st k = none ↔ k ∉ st.map Prod.fst := by
  induction st with
  | nil => simp [lookupKey]
  | cons p ps ih =>
    by_cases h : p.1 = k
    · simp [lookupKey, h]
    · simp only [lookupKey, if_neg h, List.map_cons, List.mem_cons, not_or, ih]
      exact ⟨fun h1 => ⟨fun hh => h hh.symm, h1⟩, fun h1 => h1.2⟩

theorem lookupKey_isSome {K V : Type} [DecidableEq K] {st : List (K × V)} {k : K} :
    (lookupKey st k).isSome = true ↔ k ∈ st.map Prod.fst := by
  rcases h : lookupKey st k with _ | v
  · simpa [h] using lookupKey_eq_none.mp h
  · simp only [Option.isSome_some, true_iff]
    by_contra hk
    rw [lookupKey_eq_none.mpr hk] at h
    exact Option.noConfusion h

theorem lookupKey_mem {K V : Type} [DecidableEq K] {st : List (K × V)} {k : K} {v : V}
    (h : lookupKey st k = some v) : (k, v) ∈ st := by
  induction st with
  | nil => exact absurd h (by simp [lookupKey])
  | cons p ps ih =>
    by_cases hp : p.1 = k
    · rw [lookupKey, if_pos hp] at h
      obtain rfl : p.2 = v := by injection h
      subst hp
      exact List.mem_cons.mpr (Or.inl (by simp))
    · rw [lookupKey, if_neg hp] at h
      exact List.mem_cons_of_mem _ (ih h)

theorem lookupKey_of_mem_nodup {K V : Type} [DecidableEq K] {st : List (K × V)} {k : K}
    {v : V} (hnd : (st.map Prod.fst).Nodup) (hm : (k, v) ∈ st) :
    lookupKey st k = some v := by
  induction st with
  | nil => exact absurd hm (List.not_mem_nil _)
  | cons p ps ih =>
    rcases List.mem_cons.mp hm with rfl | hm2
    · simp [lookupKey]
    · have hk : k ∈ ps.map Prod.fst := List.mem_map.mpr ⟨(k, v), hm2, rfl⟩
      have hp : p.1 ≠ k := by
        intro hh
        exact (List.nodup_cons.mp (by simpa using hnd)).1 (hh ▸ hk)
      rw [lookupKey, if_neg hp]
      exact ih (List.nodup_cons.mp (by simpa using hnd)).2 hm2

theorem lookupKey_append_of_none {K V : Type} [DecidableEq K]
    {l1 l2 : List (K × V)} {k : K} (h : lookupKey l1 k = none) :
    lookupKey (l1 ++ l2) k = lookupKey l2 k := by
  induction l1 with
  | nil => simp
  | cons p ps ih =>
    by_cases hp : p.1 = k
    · simp [lookupKey, hp] at h
    · rw [lookupKey, if_neg hp] at h
      rw [List.cons_append, lookupKey, if_neg hp]
      exact ih h

theorem lookupKey_append_of_some {K V : Type} [DecidableEq K]
    {l1 l2 : List (K × V)} {k : K} {v : V} (h : lookupKey l1 k = some v) :
    lookupKey (l1 ++ l2) k = some v := by
  induction l1 with
  | nil => simp [lookupKey] at h
  | cons p ps ih =>
    by_cases hp : p.1 = k
    · rw [lookupKey, if_pos hp] at h
      rw [List.cons_append, lookupKey, if_pos hp]
      exact h
    · rw [lookupKey, if_neg hp] at h
      rw [List.cons_append, lookupKey, if_neg hp]
      exact ih h

theorem removeKey_of_not_mem {K V : Type} [DecidableEq K] {st : List (K × V)} {k : K}
    (h : k ∉ st.map Prod.fst) : removeKey st k = st := by
  induction st with
  | nil => rfl
  | cons p ps ih =>
    rw [List.map_cons, List.mem_cons, not_or] at h
    have hp : ¬ p.1 = k := fun hh => h.1 hh.symm
    rw [removeKey, if_neg hp, ih h.2]

theorem removeKey_subset {K V : Type} [DecidableEq K] {st : List (K × V)} {k : K}
    {p : K × V} (h : p ∈ removeKey st k) : p ∈ st := by
  induction st with
  | nil => exact absurd h (List.not_mem_nil _)
  | cons q qs ih =>
    by_cases hq : q.1 = k
    · rw [removeKey, if_pos hq] at h
      exact List.mem_cons_of_mem _ (ih h)
    · rw [removeKey, if_neg hq] at h
      rcases List.mem_cons.mp h with rfl | h2
      · exact List.mem_cons_self _ _
      · exact List.mem_cons_of_mem _ (ih h2)

theorem lookupKey_removeKey_self {K V : Type} [DecidableEq K] {st : List (K × V)}
    {k : K} : lookupKey (removeKey st k) k = none := by
  induction st with
  | nil => rfl
  | cons p ps ih =>
    by_cases hp : p.1 = k
    · rw [removeKey, if_pos hp]
      exact ih
    · rw [removeKey, if_neg hp, lookupKey, if_neg hp]
      exact ih

theorem lookupKey_removeKey_ne {K V : Type} [DecidableEq K] {st : List (K × V)}
    {k j : K} (h : j ≠ k) : lookupKey (removeKey st k) j = lookupKey st j := by
  induction st with
  | nil => rfl
  | cons p ps ih =>
    by_cases hp : p.1 = k
    · have hj : ¬ p.1 = j := fun hh => h (hh.symm.trans hp)
      rw [removeKey, if_pos hp, lookupKey, if_neg hj]
      exact ih
    · by_cases hj : p.1 = j
      · rw [removeKey, if_neg hp, lookupKey, if_pos hj, lookupKey, if_pos hj]
      · rw [removeKey, if_neg hp, lookupKey, if_neg hj, lookupKey, if_neg hj]
        exact ih

theorem keys_removeKey_sublist {K V : Type} [DecidableEq K] {st : List (K × V)}
    {k : K} : List.Sublist ((removeKey st k).map Prod.fst) (st.map Prod.fst) := by
  induction st with
  | nil => simp [removeKey]
  | cons p ps ih =>
    by_cases hp : p.1 = k
    · rw [removeKey, if_pos hp, List.map_cons]
      exact ih.trans (List.sublist_cons_self _ _)
    · rw [removeKey, if_neg hp, List.map_cons, List.map_cons]
      exact ih.cons₂ _

theorem mem_keys_removeKey {K V : Type} [DecidableEq K] {st : List (K × V)}
    {k j : K} : j ∈ (removeKey st k).map Prod.fst ↔ j ∈ st.map Prod.fst ∧ j ≠ k := by
  induction st with
  | nil => simp [removeKey]
  | cons p ps ih =>
    by_cases hp : p.1 = k
    · rw [removeKey, if_pos hp, List.map_cons, List.mem_cons, ih]
      constructor
      · rintro ⟨h1, h2⟩
        exact ⟨Or.inr h1, h2⟩
      · rintro ⟨h1 | h1, h2⟩
        · exact absurd (h1.trans hp) h2
        · exact ⟨h1, h2⟩
    · rw [removeKey, if_neg hp, List.map_cons, List.map_cons, List.mem_cons,
        List.mem_cons, ih]
      constructor
      · rintro (rfl | ⟨h1, h2⟩)
        · exact ⟨Or.inl rfl, hp⟩
        · exact ⟨Or.inr h1, h2⟩
      · rintro ⟨rfl | h1, h2⟩
        · exact Or.inl rfl
        · exact Or.inr ⟨h1, h2⟩

theorem length_removeKey_add_one {K V : Type} [DecidableEq K] {st : List (K × V)}
    {k : K} (hnd : (st.map Prod.fst).Nodup) (hm : k ∈ st.map Prod.fst) :
    (removeKey st k).length + 1 = st.length := by
  induction st with
  | nil => simp at hm
  | cons p ps ih =>
    rw [List.map_cons, List.nodup_cons] at hnd
    rw [List.map_cons] at hm
    rcases List.mem_cons.mp hm with rfl | hm2
    · rw [removeKey, if_pos rfl, removeKey_of_not_mem hnd.1]
      simp
    · have hp : p.1 ≠ k := fun hh => hnd.1 (hh ▸ hm2)
      rw [removeKey, if_neg hp, List.length_cons, List.length_cons,
        ← ih hnd.2 hm2]

theorem removeFirst_of_not_mem {K : Type} [DecidableEq K] {q : List K} {k : K}
    (h : k ∉ q) : removeFirst q k = q := by
  induction q with
  | nil => rfl
  | cons a qs ih =>
    rw [List.mem_cons, not_or] at h
    have ha : ¬ a = k := fun hh => h.1 hh.symm
    rw [removeFirst, if_neg ha, ih h.2]

theorem removeFirst_sublist {K : Type} [DecidableEq K] {q : List K} {k : K} :
    List.Sublist (removeFirst q k) q := by
  induction q with
  | nil => simp [removeFirst]
  | cons a qs ih =>
    by_cases ha : a = k
    · rw [removeFirst, if_pos ha]
      exact List.sublist_cons_self _ _
    · rw [removeFirst, if_neg ha]
      exact ih.cons₂ _

theorem length_removeFirst_add_one {K : Type} [DecidableEq K] {q : List K} {k : K}
    (h : k ∈ q) : (removeFirst q k).length + 1 = q.length := by
  induction q with
  | nil => simp at h
  | cons a qs ih =>
    by_cases ha : a = k
    · rw [removeFirst, if_pos ha, List.length_cons]
    · rw [removeFirst, if_neg ha, List.length_cons, List.length_cons]
      rcases List.mem_cons.mp h with rfl | h2
      · exact absurd rfl ha
      · rw [← ih h2]

theorem not_mem_removeFirst {K : Type} [DecidableEq K] {q : List K} {k : K}
    (hnd : q.Nodup) : k ∉ removeFirst q k := by
  induction q with
  | nil => simp [removeFirst]
  | cons a qs ih =>
    rw [List.nodup_cons] at hnd
    by_cases ha : a = k
    · rw [removeFirst, if_pos ha]
      exact ha ▸ hnd.1
    · rw [removeFirst, if_neg ha, List.mem_cons, not_or]
      exact ⟨fun hh => ha hh.symm, ih hnd.2⟩

theorem mem_removeFirst_of_ne {K : Type} [DecidableEq K] {q : List K} {k j : K}
    (hm : j ∈ q) (hne : j ≠ k) : j ∈ removeFirst q k := by
  induction q with
  | nil => simp at hm
  | cons a qs ih =>
    by_cases ha : a = k
    · rw [removeFirst, if_pos ha]
      rcases List.mem_cons.mp hm with rfl | h2
      · exact absurd ha hne
      · exact h2
    · rw [removeFirst, if_neg ha]
      rcases List.mem_cons.mp hm with rfl | h2
      · exact List.mem_cons_self _ _
      · exact List.mem_cons_of_mem _ (ih h2)

theorem nodup_append_singleton {K : Type} {l : List K} {k : K}
    (hnd : l.Nodup) (hk : k ∉ l) : (l ++ [k]).Nodup := by
  rw [List.nodup_append]
  exact ⟨hnd, List.nodup_singleton k, by
    intro a ha hb
    rw [List.mem_singleton] at hb
    exact hk (hb ▸ ha)⟩

/-! Characterization of `EvictionQueue::update` (both copies share the same
body; these lemmas are stated for the `png_cache.rs` copy, which is the one
the cache facade uses). -/

theorem update_queue_of_mem {K : Type} [DecidableEq K]
    {q : List K} {m : ℕ} {k : K} (hmax : 1 ≤ m) (hlen : q.length ≤ m)
    (hk : k ∈ q) :
    (PngCacheFile.EvictionQueue.update ⟨q, m⟩ k).queue = removeFirst q k ++ [k] := by
  have hlt : (removeFirst q k).length < m := by
    have h1 := length_removeFirst_add_one hk
    omega
  rw [PngCacheFile.EvictionQueue.update]
  simp only [if_neg (Nat.not_le_of_lt hlt)]

theorem update_queue_of_not_mem_lt {K : Type} [DecidableEq K]
    {q : List K} {m : ℕ} {k : K} (hlen : q.length < m) (hk : k ∉ q) :
    (PngCacheFile.EvictionQueue.update ⟨q, m⟩ k).queue = q ++ [k] := by
  rw [PngCacheFile.EvictionQueue.update]
  simp only [removeFirst_of_not_mem hk, if_neg (Nat.not_le_of_lt hlen)]

theorem update_queue_of_not_mem_full {K : Type} [DecidableEq K]
    {q : List K} {m : ℕ} {k : K} (hlen : m ≤ q.length) (hk : k ∉ q) :
    (PngCacheFile.EvictionQueue.update ⟨q, m⟩ k).queue = q.tail ++ [k] := by
  rw [PngCacheFile.EvictionQueue.update]
  simp only [removeFirst_of_not_mem hk, if_pos hlen]

theorem touchKey_keys {K A : Type} [DecidableEq K]
    {st : List (K × CacheEntry A)} {k : K} {now : ℕ} :
    (touchKey st k now).map Prod.fst = st.map Prod.fst := by
  induction st with
  | nil => rfl
  | cons p ps ih =>
    by_cases hp : p.1 = k
    · rw [touchKey, if_pos hp]
      simp
    · rw [touchKey, if_neg hp, List.map_cons, List.map_cons, ih]

theorem touchKey_length {K A : Type} [DecidableEq K]
    {st : List (K × CacheEntry A)} {k : K} {now : ℕ} :
    (touchKey st k now).length = st.length := by
  have h := congrArg List.length (@touchKey_keys K A _ st k now)
  simpa using h

theorem lookupKey_touchKey_ne {K A : Type} [DecidableEq K]
    {st : List (K × CacheEntry A)} {k j : K} {now : ℕ} (h : j ≠ k) :
    lookupKey (touchKey st k now) j = lookupKey st j := by
  induction st with
  | nil => rfl
  | cons p ps ih =>
    by_cases hp : p.1 = k
    · have hj : ¬ p.1 = j := fun hh => h (hh.symm.trans hp)
      rw [touchKey, if_pos hp, lookupKey, lookupKey]
      simp only [hj, if_false]
    · by_cases hj : p.1 = j
      · rw [touchKey, if_neg hp, lookupKey, if_pos hj, lookupKey, if_pos hj]
      · rw [touchKey, if_neg hp, lookupKey, if_neg hj, lookupKey, if_neg hj]
        exact ih

theorem lookupKey_touchKey_self {K A : Type} [DecidableEq K]
    {st : List (K × CacheEntry A)} {k : K} {now : ℕ} :
    lookupKey (touchKey st k now) k =
      (lookupKey st k).map (fun e => ⟨e.image, e.access_count + 1, now⟩) := by
  induction st with
  | nil => rfl
  | cons p ps ih =>
    by_cases hp : p.1 = k
    · rw [touchKey, if_pos hp, lookupKey, lookupKey]
      simp only [hp, if_pos]
      rfl
    · rw [touchKey, if_neg hp, lookupKey, if_neg hp, lookupKey, if_neg hp]
      exact ih

theorem mem_touchKey {K A : Type} [DecidableEq K]
    {st : List (K × CacheEntry A)} {k : K} {now : ℕ} {p : K × CacheEntry A}
    (h : p ∈ touchKey st k now) :
    p ∈ st ∨ ∃ q ∈ st, p = (q.1, ⟨q.2.image, q.2.access_count + 1, now⟩) := by
  induction st with
  | nil => exact absurd h (List.not_mem_nil _)
  | cons q qs ih =>
    by_cases hq : q.1 = k
    · rw [touchKey, if_pos hq] at h
      rcases List.mem_cons.mp h with rfl | h2
      · exact Or.inr ⟨q, List.mem_cons_self _ _, rfl⟩
      · exact Or.inl (List.mem_cons_of_mem _ h2)
    · rw [touchKey, if_neg hq] at h
      rcases List.mem_cons.mp h with rfl | h2
      · exact Or.inl (List.mem_cons_self _ _)
      · rcases ih h2 with h3 | ⟨r, hr, hp⟩
        · exact Or.inl (List.mem_cons_of_mem _ h3)
        · exact Or.inr ⟨r, List.mem_cons_of_mem _ hr, hp⟩

theorem lookupKey_insertEntry_self {K A : Type} [DecidableEq K]
    {st : List (K × CacheEntry A)} {k : K} {e : CacheEntry A} :
    lookupKey (insertEntry st k e) k = some e := by
  rw [insertEntry, lookupKey_append_of_none lookupKey_removeKey_self, lookupKey]
  simp

theorem lookupKey_insertEntry_ne {K A : Type} [DecidableEq K]
    {st : List (K × CacheEntry A)} {k j : K} {e : CacheEntry A} (h : j ≠ k) :
    lookupKey (insertEntry st k e) j = lookupKey st j := by
  rw [insertEntry]
  rcases hj : lookupKey (removeKey st k) j with _ | v
  · rw [lookupKey_append_of_none hj, lookupKey, if_neg (fun hh => h hh.symm),
      lookupKey]
    rw [lookupKey_removeKey_ne h] at hj
    exact hj.symm
  · rw [lookupKey_append_of_some hj]
    rw [lookupKey_removeKey_ne h] at hj
    exact hj.symm

theorem insertEntry_keys {K A : Type} [DecidableEq K]
    {st : List (K × CacheEntry A)} {k : K} {e : CacheEntry A} :
    (insertEntry st k e).map Prod.fst = (removeKey st k).map Prod.fst ++ [k] := by
  rw [insertEntry, List.map_append]
  rfl

theorem mem_insertEntry {K A : Type} [DecidableEq K]
    {st : List (K × CacheEntry A)} {k : K} {e : CacheEntry A} {p : K × CacheEntry A}
    (h : p ∈ insertEntry st k e) : p ∈ st ∨ p = (k, e) := by
  rw [insertEntry] at h
  rcases List.mem_append.mp h with h1 | h1
  · exact Or.inl (removeKey_subset h1)
  · exact Or.inr (List.mem_singleton.mp h1)

theorem removeKey_eq_filter {K V : Type} [DecidableEq K] {st : List (K × V)} {k : K} :
    removeKey st k = st.filter (fun p => decide (¬ p.1 = k)) := by
  induction st with
  | nil => rfl
  | cons p ps ih =>
    by_cases hp : p.1 = k
    · rw [removeKey, if_pos hp, ih, List.filter_cons]
      simp [hp]
    · rw [removeKey, if_neg hp, ih, List.filter_cons]
      simp [hp]

theorem foldl_removeKey_eq_filter {K V : Type} [DecidableEq K] :
    ∀ (ks : List K) (st : List (K × V)),
      ks.foldl (fun acc k => removeKey acc k) st
        = st.filter (fun p => decide (p.1 ∉ ks)) := by
  intro ks
  induction ks with
  | nil => intro st; simp
  | cons k ks ih =>
    intro st
    rw [List.foldl_cons, ih (removeKey st k), removeKey_eq_filter,
      List.filter_filter]
    apply List.filter_congr
    intro p hp
    simp only [List.mem_cons, not_or, Bool.decide_and]
    rw [Bool.and_comm]

theorem eq_of_mem_keys_nodup {K V : Type} [DecidableEq K] {st : List (K × V)}
    {p q : K × V} (hnd : (st.map Prod.fst).Nodup) (hp : p ∈ st) (hq : q ∈ st)
    (hfst : p.1 = q.1) : p = q := by
  have h1 : lookupKey st p.1 = some p.2 := by
    apply lookupKey_of_mem_nodup hnd
    exact (by simpa using hp)
  have h2 : lookupKey st q.1 = some q.2 := by
    apply lookupKey_of_mem_nodup hnd
    exact (by simpa using hq)
  rw [hfst, h2] at h1
  have h3 : q.2 = p.2 := by injection h1
  exact Prod.ext hfst h3.symm

theorem cleanup_eq_filter {K A : Type} [DecidableEq K]
    {st : List (K × CacheEntry A)} {now : ℕ}
    (hnd : (st.map Prod.fst).Nodup) :
    cleanup_old_entries st now
      = st.filter (fun p => decide (now - p.2.last_accessed < 3600)) := by
  rw [cleanup_old_entries]
  by_cases hemp :
      ((st.filter (fun p => decide (3600 ≤ now - p.2.last_accessed))).map
        Prod.fst).isEmpty = true
  · rw [if_pos hemp]
    rw [List.isEmpty_iff, List.map_eq_nil_iff] at hemp
    have hall : ∀ p ∈ st, ¬ 3600 ≤ now - p.2.last_accessed := by
      intro p hp hstale
      have : p ∈ st.filter (fun p => decide (3600 ≤ now - p.2.last_accessed)) :=
        List.mem_filter.mpr ⟨hp, by simpa using hstale⟩
      rw [hemp] at this
      exact List.not_mem_nil p this
    symm
    apply List.filter_eq_self.mpr
    intro p hp
    simpa using Nat.lt_of_not_le (hall p hp)
  · rw [if_neg hemp, foldl_removeKey_eq_filter]
    apply List.filter_congr
    intro p hp
    simp only [decide_eq_decide]
    constructor
    · intro hnotin
      by_contra hge
      rw [Nat.not_lt] at hge
      exact hnotin (List.mem_map.mpr
        ⟨p, List.mem_filter.mpr ⟨hp, by simpa using hge⟩, rfl⟩)
    · intro hlt hin
      rcases List.mem_map.mp hin with ⟨q, hq, hq1⟩
      rcases List.mem_filter.mp hq with ⟨hq2, hq3⟩
      have : q = p := eq_of_mem_keys_nodup hnd hq2 hp hq1
      subst this
      simp only [decide_eq_true_eq] at hq3
      omega

theorem sweepTick_cache {K A : Type} [DecidableEq K]
    {s : PngCache K A} {now : ℕ} (hnd : (s.cache.map Prod.fst).Nodup) :
    (s.sweepTick now).cache
      = s.cache.filter (fun p => decide (now - p.2.last_accessed < 3600)) := by
  rw [PngCache.sweepTick]
  exact cleanup_eq_filter hnd

theorem sweepTick_queue {K A : Type} [DecidableEq K]
    {s : PngCache K A} {now : ℕ} :
    (s.sweepTick now).eviction_queue = s.eviction_queue := rfl

theorem sweepTick_max {K A : Type} [DecidableEq K]
    {s : PngCache K A} {now : ℕ} :
    (s.sweepTick now).max_size = s.max_size := rfl

/-! The reachability invariant tying the store to the eviction queue. -/

/-- Relation holding between queue positions (front to back): liveness is
monotone (a key that is in the store forces every later key to be in the
store too — stale keys form a front segment of the queue), and live entries
are ordered by `last_accessed`. -/
def qrel {K A : Type} [DecidableEq K] (st : List (K × CacheEntry A)) (a b : K) :
    Prop :=
  (a ∈ st.map Prod.fst → b ∈ st.map Prod.fst) ∧
  (∀ ea eb : CacheEntry A, lookupKey st a = some ea → lookupKey st b = some eb →
    ea.last_accessed ≤ eb.last_accessed)

/-- Invariant of every reachable cache state at latest-step time `t`. -/
structure CacheInv {K A : Type} [DecidableEq K] (max t : ℕ) (s : PngCache K A) :
    Prop where
  nodup_cache : (s.cache.map Prod.fst).Nodup
  nodup_queue : s.eviction_queue.queue.Nodup
  queue_le : s.eviction_queue.queue.length ≤ max
  cache_le : s.cache.length ≤ max
  cache_sub : ∀ j ∈ s.cache.map Prod.fst, j ∈ s.eviction_queue.queue
  ordered : s.eviction_queue.queue.Pairwise (qrel s.cache)
  time_le : ∀ p ∈ s.cache, p.2.last_accessed ≤ t
  qmax : s.eviction_queue.max_size = max
  smax : s.max_size = max

theorem lookupKey_append_singleton_ne {K A : Type} [DecidableEq K]
    {st : List (K × CacheEntry A)} {k j : K} {e : CacheEntry A} (h : j ≠ k) :
    lookupKey (st ++ [(k, e)]) j = lookupKey st j := by
  rcases hj : lookupKey st j with _ | v
  · rw [lookupKey_append_of_none hj, lookupKey, if_neg (fun hh => h hh.symm)]
    rfl
  · rw [lookupKey_append_of_some hj]

theorem lookupKey_append_singleton_self {K A : Type} [DecidableEq K]
    {st : List (K × CacheEntry A)} {k : K} {e : CacheEntry A}
    (h : lookupKey st k = none) :
    lookupKey (st ++ [(k, e)]) k = some e := by
  rw [lookupKey_append_of_none h, lookupKey]
  simp

theorem mem_keys_append_singleton {K A : Type} [DecidableEq K]
    {st : List (K × CacheEntry A)} {k j : K} {e : CacheEntry A} :
    j ∈ ((st ++ [(k, e)]).map Prod.fst) ↔ j ∈ st.map Prod.fst ∨ j = k := by
  rw [List.map_append, List.mem_append]
  simp

/-- Transfer the queue relation across a store change that preserves the
liveness and the stored entry of every key in the list. -/
theorem pairwise_qrel_transfer {K A : Type} [DecidableEq K]
    {st st' : List (K × CacheEntry A)} {l : List K}
    (hpw : l.Pairwise (qrel st))
    (hkeys : ∀ j ∈ l, (j ∈ st'.map Prod.fst ↔ j ∈ st.map Prod.fst))
    (hlook : ∀ j ∈ l, lookupKey st' j = lookupKey st j) :
    l.Pairwise (qrel st') := by
  refine hpw.imp_of_mem ?_
  intro a b ha hb hr
  constructor
  · intro ha'
    rw [hkeys a ha] at ha'
    rw [hkeys b hb]
    exact hr.1 ha'
  · intro ea eb hea heb
    rw [hlook a ha] at hea
    rw [hlook b hb] at heb
    exact hr.2 ea eb hea heb

/-- If the queue is strictly longer than the store then its front key cannot
be live: liveness is monotone along the queue, so a live front would force
every queue key into the store, contradicting the length gap. -/
theorem head_not_live_of_lt {K A : Type} [DecidableEq K]
    {st : List (K × CacheEntry A)} {f : K} {qt : List K}
    (hnd : (st.map Prod.fst).Nodup) (hq : (f :: qt).Nodup)
    (hpw : (f :: qt).Pairwise (qrel st))
    (hlen : st.length < (f :: qt).length) : f ∉ st.map Prod.fst := by
  intro hf
  have hall : ∀ j ∈ f :: qt, j ∈ st.map Prod.fst := by
    intro j hj
    rcases List.mem_cons.mp hj with rfl | hj2
    · exact hf
    · exact ((List.pairwise_cons.mp hpw).1 j hj2).1 hf
  have hsub : List.Subperm (f :: qt) (st.map Prod.fst) :=
    List.subperm_of_subset hq hall
  have := hsub.length_le
  rw [List.length_map] at this
  omega

/-- When the store is full, its key set is a permutation of the queue. -/
theorem keys_perm_queue_of_full {K A : Type} [DecidableEq K]
    {st : List (K × CacheEntry A)} {q : List K} {max : ℕ}
    (hnd : (st.map Prod.fst).Nodup) (hql : q.length ≤ max)
    (hfull : st.length = max)
    (hsub : ∀ j ∈ st.map Prod.fst, j ∈ q) :
    (st.map Prod.fst).Perm q := by
  have hsp : List.Subperm (st.map Prod.fst) q :=
    List.subperm_of_subset hnd hsub
  apply hsp.perm_of_length_le
  rw [List.length_map]
  omega

theorem CacheInv_get_hit {K A : Type} [DecidableEq K] {max t now : ℕ}
    {st : List (K × CacheEntry A)} {q : List K} {k : K} {e : CacheEntry A}
    (hinv : CacheInv max t (⟨st, ⟨q, max⟩, max⟩ : PngCache K A))
    (hnow : t ≤ now) (hmax : 1 ≤ max) (hlk : lookupKey st k = some e) :
    CacheInv max now
      (⟨touchKey st k now, PngCacheFile.EvictionQueue.update ⟨q, max⟩ k, max⟩ :
        PngCache K A) := by
  obtain ⟨h1, h2, h3, h4, h5, h6, h7, h8, h9⟩ := hinv
  dsimp only at h1 h2 h3 h4 h5 h6 h7
  have hkmem : k ∈ st.map Prod.fst := lookupKey_isSome.mp (by rw [hlk]; rfl)
  have hkq : k ∈ q := h5 k hkmem
  have hq' : (PngCacheFile.EvictionQueue.update ⟨q, max⟩ k).queue
      = removeFirst q k ++ [k] := update_queue_of_mem hmax h3 hkq
  have hrfnd : (removeFirst q k).Nodup := h2.sublist removeFirst_sublist
  have hknotrf : k ∉ removeFirst q k := not_mem_removeFirst h2
  have hlen1 : (removeFirst q k).length + 1 = q.length :=
    length_removeFirst_add_one hkq
  refine ⟨?_, ?_, ?_, ?_, ?_, ?_, ?_, rfl, rfl⟩
  · show ((touchKey st k now).map Prod.fst).Nodup
    rw [touchKey_keys]
    exact h1
  · show (PngCacheFile.EvictionQueue.update ⟨q, max⟩ k).queue.Nodup
    rw [hq']
    exact nodup_append_singleton hrfnd hknotrf
  · show (PngCacheFile.EvictionQueue.update ⟨q, max⟩ k).queue.length ≤ max
    rw [hq', List.length_append]
    simp only [List.length_singleton]
    omega
  · show (touchKey st k now).length ≤ max
    rw [touchKey_length]
    exact h4
  · intro j hj
    rw [touchKey_keys] at hj
    show j ∈ (PngCacheFile.EvictionQueue.update ⟨q, max⟩ k).queue
    rw [hq']
    by_cases hjk : j = k
    · exact List.mem_append.mpr (Or.inr (by simp [hjk]))
    · exact List.mem_append.mpr (Or.inl (mem_removeFirst_of_ne (h5 j hj) hjk))
  · show ((PngCacheFile.EvictionQueue.update ⟨q, max⟩ k).queue).Pairwise
      (qrel (touchKey st k now))
    rw [hq']
    apply List.pairwise_append.mpr
    refine ⟨?_, List.pairwise_singleton _ _, ?_⟩
    · apply pairwise_qrel_transfer (h6.sublist removeFirst_sublist)
      · intro j hj
        rw [touchKey_keys]
      · intro j hj
        exact lookupKey_touchKey_ne (fun he => hknotrf (he ▸ hj))
    · intro a ha b hb
      obtain rfl : b = k := List.mem_singleton.mp hb
      constructor
      · intro _
        rw [touchKey_keys]
        exact hkmem
      · intro ea eb hea heb
        have hane : a ≠ b := fun he => hknotrf (he ▸ ha)
        rw [lookupKey_touchKey_ne hane] at hea
        have h7a : ea.last_accessed ≤ t := h7 (a, ea) (lookupKey_mem hea)
        rw [lookupKey_touchKey_self, hlk] at heb
        have : eb = ⟨e.image, e.access_count + 1, now⟩ := by
          injection heb with hh
          exact hh.symm
        rw [this]
        exact le_trans h7a hnow
  · intro p hp
    rcases mem_touchKey hp with hmem | ⟨r, hr, rfl⟩
    · exact le_trans (h7 p hmem) hnow
    · exact le_refl _

theorem CacheInv_mono_time {K A : Type} [DecidableEq K] {max t now : ℕ}
    {s : PngCache K A} (hinv : CacheInv max t s) (hnow : t ≤ now) :
    CacheInv max now s := by
  obtain ⟨h1, h2, h3, h4, h5, h6, h7, h8, h9⟩ := hinv
  exact ⟨h1, h2, h3, h4, h5, h6, fun p hp => le_trans (h7 p hp) hnow, h8, h9⟩

theorem CacheInv_get_evict {K A : Type} [DecidableEq K] {max t now : ℕ}
    {st : List (K × CacheEntry A)} {f : K} {qt : List K} {k : K} {img : A}
    (hinv : CacheInv max t (⟨st, ⟨f :: qt, max⟩, max⟩ : PngCache K A))
    (hnow : t ≤ now) (hmax : 1 ≤ max) (hlk : lookupKey st k = none)
    (hfull : st.length = max) :
    CacheInv max now
      (⟨insertEntry (removeKey st f) k ⟨img, 1, now⟩,
        PngCacheFile.EvictionQueue.update ⟨f :: qt, max⟩ k, max⟩ :
        PngCache K A) := by
  obtain ⟨h1, h2, h3, h4, h5, h6, h7, h8, h9⟩ := hinv
  dsimp only at h1 h2 h3 h4 h5 h6 h7
  have hperm : (st.map Prod.fst).Perm (f :: qt) :=
    keys_perm_queue_of_full h1 h3 hfull h5
  have hf : f ∈ st.map Prod.fst := hperm.mem_iff.mpr (List.mem_cons_self _ _)
  have hknot : k ∉ st.map Prod.fst := lookupKey_eq_none.mp hlk
  have hkq : k ∉ f :: qt := fun h => hknot (hperm.mem_iff.mpr h)
  have hqlen : (f :: qt).length = max := by
    rw [← hperm.length_eq, List.length_map, hfull]
  have hq' : (PngCacheFile.EvictionQueue.update ⟨f :: qt, max⟩ k).queue
      = qt ++ [k] := update_queue_of_not_mem_full (le_of_eq hqlen.symm) hkq
  have hkf : k ≠ f := fun he => hknot (he ▸ hf)
  have hkrm : k ∉ (removeKey st f).map Prod.fst :=
    fun h => hknot (mem_keys_removeKey.mp h).1
  have hc2 : insertEntry (removeKey st f) k ⟨img, 1, now⟩
      = removeKey st f ++ [(k, ⟨img, 1, now⟩)] := by
    rw [insertEntry, removeKey_of_not_mem hkrm]
  have hkeys2 : ∀ j, j ∈ ((insertEntry (removeKey st f) k
      ⟨img, 1, now⟩).map Prod.fst)
      ↔ (j ∈ st.map Prod.fst ∧ j ≠ f) ∨ j = k := by
    intro j
    rw [hc2, mem_keys_append_singleton, mem_keys_removeKey]
  have hlc2ne : ∀ j, j ≠ k → j ≠ f →
      lookupKey (insertEntry (removeKey st f) k ⟨img, 1, now⟩) j
        = lookupKey st j := by
    intro j hjk hjf
    rw [hc2, lookupKey_append_singleton_ne hjk, lookupKey_removeKey_ne hjf]
  have hlc2k : lookupKey (insertEntry (removeKey st f) k ⟨img, 1, now⟩) k
      = some ⟨img, 1, now⟩ := by
    rw [hc2]
    apply lookupKey_append_singleton_self
    rw [lookupKey_removeKey_ne hkf, hlk]
  have hfqt : f ∉ qt := (List.nodup_cons.mp h2).1
  have hkqt : k ∉ qt := fun h => hkq (List.mem_cons_of_mem _ h)
  refine ⟨?_, ?_, ?_, ?_, ?_, ?_, ?_, rfl, rfl⟩
  · show ((insertEntry (removeKey st f) k ⟨img, 1, now⟩).map Prod.fst).Nodup
    rw [hc2, List.map_append]
    exact nodup_append_singleton (h1.sublist keys_removeKey_sublist) hkrm
  · show (PngCacheFile.EvictionQueue.update ⟨f :: qt, max⟩ k).queue.Nodup
    rw [hq']
    exact nodup_append_singleton (List.nodup_cons.mp h2).2 hkqt
  · show (PngCacheFile.EvictionQueue.update ⟨f :: qt, max⟩ k).queue.length ≤ max
    rw [hq', List.length_append, List.length_singleton]
    rw [List.length_cons] at hqlen
    omega
  · show (insertEntry (removeKey st f) k ⟨img, 1, now⟩).length ≤ max
    rw [hc2, List.length_append, List.length_singleton]
    have := length_removeKey_add_one h1 hf
    omega
  · intro j hj
    show j ∈ (PngCacheFile.EvictionQueue.update ⟨f :: qt, max⟩ k).queue
    rw [hq']
    rcases (hkeys2 j).mp hj with ⟨hj1, hj2⟩ | rfl
    · rcases List.mem_cons.mp (h5 j hj1) with rfl | hj3
      · exact absurd rfl hj2
      · exact List.mem_append.mpr (Or.inl hj3)
    · exact List.mem_append.mpr (Or.inr (by simp))
  · show (PngCacheFile.EvictionQueue.update ⟨f :: qt, max⟩ k).queue.Pairwise
      (qrel (insertEntry (removeKey st f) k ⟨img, 1, now⟩))
    rw [hq']
    apply List.pairwise_append.mpr
    refine ⟨?_, List.pairwise_singleton _ _, ?_⟩
    · apply pairwise_qrel_transfer (List.pairwise_cons.mp h6).2
      · intro j hj
        rw [hkeys2 j]
        have hjk : j ≠ k := fun he => hkqt (he ▸ hj)
        have hjf : j ≠ f := fun he => hfqt (he ▸ hj)
        constructor
        · rintro (⟨hh, _⟩ | rfl)
          · exact hh
          · exact absurd rfl hjk
        · intro hh
          exact Or.inl ⟨hh, hjf⟩
      · intro j hj
        exact hlc2ne j (fun he => hkqt (he ▸ hj)) (fun he => hfqt (he ▸ hj))
    · intro a ha b hb
      obtain rfl : b = k := List.mem_singleton.mp hb
      constructor
      · intro _
        exact (hkeys2 b).mpr (Or.inr rfl)
      · intro ea eb hea heb
        rw [hlc2ne a (fun he => hkqt (he ▸ ha)) (fun he => hfqt (he ▸ ha))] at hea
        have h7a : ea.last_accessed ≤ t := h7 (a, ea) (lookupKey_mem hea)
        rw [hlc2k] at heb
        have : eb = ⟨img, 1, now⟩ := by
          injection heb with hh
          exact hh.symm
        rw [this]
        exact le_trans h7a hnow
  · intro p hp
    rw [hc2] at hp
    rcases List.mem_append.mp hp with hp1 | hp1
    · exact le_trans (h7 p (removeKey_subset hp1)) hnow
    · obtain rfl : p = (k, ⟨img, 1, now⟩) := List.mem_singleton.mp hp1
      exact le_refl _

theorem CacheInv_get_insert {K A : Type} [DecidableEq K] {max t now : ℕ}
    {st : List (K × CacheEntry A)} {q : List K} {k : K} {img : A}
    (hinv : CacheInv max t (⟨st, ⟨q, max⟩, max⟩ : PngCache K A))
    (hnow : t ≤ now) (hmax : 1 ≤ max) (hlk : lookupKey st k = none)
    (hnotfull : st.length < max) :
    CacheInv max now
      (⟨insertEntry st k ⟨img, 1, now⟩,
        PngCacheFile.EvictionQueue.update ⟨q, max⟩ k, max⟩ :
        PngCache K A) := by
  obtain ⟨h1, h2, h3, h4, h5, h6, h7, h8, h9⟩ := hinv
  dsimp only at h1 h2 h3 h4 h5 h6 h7
  have hknot : k ∉ st.map Prod.fst := lookupKey_eq_none.mp hlk
  have hc2 : insertEntry st k ⟨img, 1, now⟩ = st ++ [(k, ⟨img, 1, now⟩)] := by
    rw [insertEntry, removeKey_of_not_mem hknot]
  have hkeys2 : ∀ j, j ∈ ((insertEntry st k ⟨img, 1, now⟩).map Prod.fst)
      ↔ j ∈ st.map Prod.fst ∨ j = k := by
    intro j
    rw [hc2, mem_keys_append_singleton]
  have hlc2ne : ∀ j, j ≠ k →
      lookupKey (insertEntry st k ⟨img, 1, now⟩) j = lookupKey st j := by
    intro j hjk
    rw [hc2, lookupKey_append_singleton_ne hjk]
  have hlc2k : lookupKey (insertEntry st k ⟨img, 1, now⟩) k
      = some ⟨img, 1, now⟩ := by
    rw [hc2]
    exact lookupKey_append_singleton_self hlk
  have hnd2 : ((insertEntry st k ⟨img, 1, now⟩).map Prod.fst).Nodup := by
    rw [hc2, List.map_append]
    exact nodup_append_singleton h1 hknot
  have hlen2 : (insertEntry st k ⟨img, 1, now⟩).length = st.length + 1 := by
    rw [hc2, List.length_append, List.length_singleton]
  have htime : ∀ p ∈ insertEntry st k ⟨img, 1, now⟩,
      p.2.last_accessed ≤ now := by
    intro p hp
    rw [hc2] at hp
    rcases List.mem_append.mp hp with hp1 | hp1
    · exact le_trans (h7 p hp1) hnow
    · obtain rfl : p = (k, ⟨img, 1, now⟩) := List.mem_singleton.mp hp1
      exact le_refl _
  have hord : ∀ q0 : List K, List.Sublist q0 q → k ∉ q0 →
      (q0 ++ [k]).Pairwise (qrel (insertEntry st k ⟨img, 1, now⟩)) := by
    intro q0 hsub hk0
    apply List.pairwise_append.mpr
    refine ⟨?_, List.pairwise_singleton _ _, ?_⟩
    · apply pairwise_qrel_transfer (h6.sublist hsub)
      · intro j hj
        rw [hkeys2 j]
        have hjk : j ≠ k := fun he => hk0 (he ▸ hj)
        exact ⟨fun hh => hh.resolve_right hjk, Or.inl⟩
      · intro j hj
        exact hlc2ne j (fun he => hk0 (he ▸ hj))
    · intro a ha b hb
      obtain rfl : b = k := List.mem_singleton.mp hb
      constructor
      · intro _
        exact (hkeys2 b).mpr (Or.inr rfl)
      · intro ea eb hea heb
        rw [hlc2ne a (fun he => hk0 (he ▸ ha))] at hea
        have h7a : ea.last_accessed ≤ t := h7 (a, ea) (lookupKey_mem hea)
        rw [hlc2k] at heb
        have : eb = ⟨img, 1, now⟩ := by
          injection heb with hh
          exact hh.symm
        rw [this]
        exact le_trans h7a hnow
  by_cases hkq : k ∈ q
  · have hq' : (PngCacheFile.EvictionQueue.update ⟨q, max⟩ k).queue
        = removeFirst q k ++ [k] := update_queue_of_mem hmax h3 hkq
    have hlen1 : (removeFirst q k).length + 1 = q.length :=
      length_removeFirst_add_one hkq
    refine ⟨hnd2, ?_, ?_, ?_, ?_, ?_, htime, rfl, rfl⟩
    · show (PngCacheFile.EvictionQueue.update ⟨q, max⟩ k).queue.Nodup
      rw [hq']
      exact nodup_append_singleton (h2.sublist removeFirst_sublist)
        (not_mem_removeFirst h2)
    · show (PngCacheFile.EvictionQueue.update ⟨q, max⟩ k).queue.length ≤ max
      rw [hq', List.length_append, List.length_singleton]
      omega
    · show (insertEntry st k ⟨img, 1, now⟩).length ≤ max
      omega
    · intro j hj
      show j ∈ (PngCacheFile.EvictionQueue.update ⟨q, max⟩ k).queue
      rw [hq']
      rcases (hkeys2 j).mp hj with hj1 | rfl
      · have hjk : j ≠ k := fun he => hknot (he ▸ hj1)
        exact List.mem_append.mpr (Or.inl (mem_removeFirst_of_ne (h5 j hj1) hjk))
      · exact List.mem_append.mpr (Or.inr (by simp))
    · show (PngCacheFile.EvictionQueue.update ⟨q, max⟩ k).queue.Pairwise
        (qrel (insertEntry st k ⟨img, 1, now⟩))
      rw [hq']
      exact hord _ removeFirst_sublist (not_mem_removeFirst h2)
  · by_cases hql : max ≤ q.length
    · rcases q with _ | ⟨f, qt⟩
      · rw [List.length_nil] at hql
        omega
      · have hq' : (PngCacheFile.EvictionQueue.update ⟨f :: qt, max⟩ k).queue
            = qt ++ [k] := update_queue_of_not_mem_full hql hkq
        have hfnot : f ∉ st.map Prod.fst := by
          apply head_not_live_of_lt h1 h2 h6
          rw [List.length_cons]
          rw [List.length_cons] at hql
          omega
        have hkqt : k ∉ qt := fun h => hkq (List.mem_cons_of_mem _ h)
        refine ⟨hnd2, ?_, ?_, ?_, ?_, ?_, htime, rfl, rfl⟩
        · show (PngCacheFile.EvictionQueue.update ⟨f :: qt, max⟩ k).queue.Nodup
          rw [hq']
          exact nodup_append_singleton (List.nodup_cons.mp h2).2 hkqt
        · show (PngCacheFile.EvictionQueue.update
            ⟨f :: qt, max⟩ k).queue.length ≤ max
          rw [hq', List.length_append, List.length_singleton]
          rw [List.length_cons] at h3
          omega
        · show (insertEntry st k ⟨img, 1, now⟩).length ≤ max
          omega
        · intro j hj
          show j ∈ (PngCacheFile.EvictionQueue.update ⟨f :: qt, max⟩ k).queue
          rw [hq']
          rcases (hkeys2 j).mp hj with hj1 | rfl
          · have hjf : j ≠ f := fun he => hfnot (he ▸ hj1)
            rcases List.mem_cons.mp (h5 j hj1) with rfl | hj3
            · exact absurd rfl hjf
            · exact List.mem_append.mpr (Or.inl hj3)
          · exact List.mem_append.mpr (Or.inr (by simp))
        · show (PngCacheFile.EvictionQueue.update ⟨f :: qt, max⟩ k).queue.Pairwise
            (qrel (insertEntry st k ⟨img, 1, now⟩))
          rw [hq']
          exact hord qt (List.sublist_cons_self f qt) hkqt
    · have hq' : (PngCacheFile.EvictionQueue.update ⟨q, max⟩ k).queue
          = q ++ [k] := update_queue_of_not_mem_lt (Nat.lt_of_not_le hql) hkq
      refine ⟨hnd2, ?_, ?_, ?_, ?_, ?_, htime, rfl, rfl⟩
      · show (PngCacheFile.EvictionQueue.update ⟨q, max⟩ k).queue.Nodup
        rw [hq']
        exact nodup_append_singleton h2 hkq
      · show (PngCacheFile.EvictionQueue.update ⟨q, max⟩ k).queue.length ≤ max
        rw [hq', List.length_append, List.length_singleton]
        have := Nat.lt_of_not_le hql
        omega
      · show (insertEntry st k ⟨img, 1, now⟩).length ≤ max
        omega
      · intro j hj
        show j ∈ (PngCacheFile.EvictionQueue.update ⟨q, max⟩ k).queue
        rw [hq']
        rcases (hkeys2 j).mp hj with hj1 | rfl
        · exact List.mem_append.mpr (Or.inl (h5 j hj1))
        · exact List.mem_append.mpr (Or.inr (by simp))
      · show (PngCacheFile.EvictionQueue.update ⟨q, max⟩ k).queue.Pairwise
          (qrel (insertEntry st k ⟨img, 1, now⟩))
        rw [hq']
        exact hord q (List.Sublist.refl q) hkq

theorem CacheInv_sweep {K A : Type} [DecidableEq K] {max t now : ℕ}
    {s : PngCache K A} (hinv : CacheInv max t s) (hnow : t ≤ now) :
    CacheInv max now (s.sweepTick now) := by
  obtain ⟨h1, h2, h3, h4, h5, h6, h7, h8, h9⟩ := hinv
  have hc : (s.sweepTick now).cache
      = s.cache.filter (fun p => decide (now - p.2.last_accessed < 3600)) :=
    sweepTick_cache h1
  have hsubl : List.Sublist
      ((s.cache.filter (fun p => decide (now - p.2.last_accessed < 3600))).map
        Prod.fst)
      (s.cache.map Prod.fst) := (List.filter_sublist s.cache).map Prod.fst
  have hnd2 : (((s.sweepTick now).cache).map Prod.fst).Nodup := by
    rw [hc]
    exact h1.sublist hsubl
  have hlf : ∀ j e, lookupKey (s.sweepTick now).cache j = some e →
      lookupKey s.cache j = some e ∧ now - e.last_accessed < 3600 := by
    intro j e hje
    rw [hc] at hje
    have hmem := lookupKey_mem hje
    rcases List.mem_filter.mp hmem with ⟨hm1, hm2⟩
    refine ⟨lookupKey_of_mem_nodup h1 hm1, by simpa using hm2⟩
  have hlf2 : ∀ j e, lookupKey s.cache j = some e →
      now - e.last_accessed < 3600 →
      lookupKey (s.sweepTick now).cache j = some e := by
    intro j e hje hfresh
    rw [hc]
    apply lookupKey_of_mem_nodup (by rw [hc] at hnd2; exact hnd2)
    exact List.mem_filter.mpr ⟨lookupKey_mem hje, by simpa using hfresh⟩
  refine ⟨hnd2, ?_, ?_, ?_, ?_, ?_, ?_, ?_, ?_⟩
  · show ((s.sweepTick now).eviction_queue.queue).Nodup
    rw [sweepTick_queue]
    exact h2
  · show ((s.sweepTick now).eviction_queue.queue).length ≤ max
    rw [sweepTick_queue]
    exact h3
  · show ((s.sweepTick now).cache).length ≤ max
    rw [hc]
    exact le_trans (List.length_filter_le _ _) h4
  · intro j hj
    rw [hc] at hj
    show j ∈ (s.sweepTick now).eviction_queue.queue
    rw [sweepTick_queue]
    exact h5 j (hsubl.mem hj)
  · show ((s.sweepTick now).eviction_queue.queue).Pairwise
      (qrel (s.sweepTick now).cache)
    rw [sweepTick_queue]
    refine h6.imp_of_mem ?_
    intro a b ha hb hr
    constructor
    · intro ha'
      rcases Option.isSome_iff_exists.mp (lookupKey_isSome.mpr ha') with ⟨ea, hea⟩
      rcases hlf a ea hea with ⟨hea2, hfra⟩
      have hamem : a ∈ s.cache.map Prod.fst :=
        lookupKey_isSome.mp (by rw [hea2]; rfl)
      have hbmem : b ∈ s.cache.map Prod.fst := hr.1 hamem
      rcases Option.isSome_iff_exists.mp (lookupKey_isSome.mpr hbmem) with ⟨eb, heb⟩
      have hab : ea.last_accessed ≤ eb.last_accessed := hr.2 ea eb hea2 heb
      have hfrb : now - eb.last_accessed < 3600 :=
        lt_of_le_of_lt (Nat.sub_le_sub_left hab now) hfra
      have := hlf2 b eb heb hfrb
      exact lookupKey_isSome.mp (by rw [this]; rfl)
    · intro ea eb hea heb
      exact hr.2 ea eb (hlf a ea hea).1 (hlf b eb heb).1
  · intro p hp
    rw [hc] at hp
    exact le_trans (h7 p (List.mem_filter.mp hp).1) hnow
  · show (s.sweepTick now).eviction_queue.max_size = max
    rw [sweepTick_queue]
    exact h8
  · show (s.sweepTick now).max_size = max
    rw [sweepTick_max]
    exact h9

theorem CacheInv_new {K A : Type} [DecidableEq K] {max : ℕ} :
    CacheInv max 0 (PngCache.new K A max) := by
  refine ⟨?_, ?_, ?_, ?_, ?_, ?_, ?_, rfl, rfl⟩ <;>
    simp [PngCache.new]

theorem CacheInv_get {K A : Type} [DecidableEq K] {max t now : ℕ}
    {s : PngCache K A} {k : K} {loader : Option A}
    (hinv : CacheInv max t s) (hnow : t ≤ now) (hmax : 1 ≤ max) :
    CacheInv max now ((s.get k now loader).state) := by
  obtain ⟨st, ⟨q, qm⟩, sm⟩ := s
  have h8 : qm = max := hinv.qmax
  have h9 : sm = max := hinv.smax
  rw [h8, h9] at hinv ⊢
  rcases hlk : lookupKey st k with _ | e
  · rcases loader with _ | img
    · have hstate : ((PngCache.get ⟨st, ⟨q, max⟩, max⟩ k now none)).state
          = ⟨st, ⟨q, max⟩, max⟩ := by
        simp only [PngCache.get]
        rw [hlk]
      rw [hstate]
      exact CacheInv_mono_time hinv hnow
    · by_cases hfull : max ≤ st.length
      · have h4 : st.length ≤ max := hinv.cache_le
        have hfull2 : st.length = max := le_antisymm h4 hfull
        have hstne : st ≠ [] := by
          intro hst
          rw [hst] at hfull2
          simp only [List.length_nil] at hfull2
          omega
        have hqne : q ≠ [] := by
          rcases st with _ | ⟨p, st2⟩
          · exact absurd rfl hstne
          · intro hq
            have hmem : p.1 ∈ ((p :: st2).map Prod.fst) := by simp
            have := hinv.cache_sub p.1 hmem
            rw [hq] at this
            exact absurd this (List.not_mem_nil _)
        rcases q with _ | ⟨f, qt⟩
        · exact absurd rfl hqne
        · have hstate : ((PngCache.get ⟨st, ⟨f :: qt, max⟩, max⟩ k now
              (some img))).state
              = ⟨insertEntry (removeKey st f) k ⟨img, 1, now⟩,
                 PngCacheFile.EvictionQueue.update ⟨f :: qt, max⟩ k, max⟩ := by
            simp only [PngCache.get]
            rw [hlk]
            simp only [PngCacheFile.EvictionQueue.get_oldest, List.head?_cons,
              if_pos hfull]
          rw [hstate]
          exact CacheInv_get_evict hinv hnow hmax hlk hfull2
      · have hstate : ((PngCache.get ⟨st, ⟨q, max⟩, max⟩ k now (some img))).state
            = ⟨insertEntry st k ⟨img, 1, now⟩,
               PngCacheFile.EvictionQueue.update ⟨q, max⟩ k, max⟩ := by
          simp only [PngCache.get]
          rw [hlk]
          simp only [if_neg hfull]
        rw [hstate]
        exact CacheInv_get_insert hinv hnow hmax hlk (Nat.lt_of_not_le hfull)
  · have hstate : ((PngCache.get ⟨st, ⟨q, max⟩, max⟩ k now loader)).state
        = ⟨touchKey st k now, PngCacheFile.EvictionQueue.update ⟨q, max⟩ k, max⟩ := by
      simp only [PngCache.get]
      rw [hlk]
    rw [hstate]
    exact CacheInv_get_hit hinv hnow hmax hlk

theorem Reach_CacheInv {K A : Type} [DecidableEq K] {max t : ℕ}
    {s : PngCache K A} (hr : Reach max s t) (hmax : 1 ≤ max) :
    CacheInv max t s := by
  induction hr with
  | new => exact CacheInv_new
  | get hr hle ih => exact CacheInv_get ih hle hmax
  | sweep hr hle ih => exact CacheInv_sweep ih hle

/-! Branch equations for `PngCache.get` and lookup facts for the sweeper. -/

theorem get_eq_hit {K A : Type} [DecidableEq K] {s : PngCache K A} {k : K}
    {now : ℕ} {loader : Option A} {e : CacheEntry A}
    (h : lookupKey s.cache k = some e) :
    s.get k now loader
      = ⟨some e.image,
         ⟨touchKey s.cache k now, s.eviction_queue.update k, s.max_size⟩,
         false⟩ := by
  obtain ⟨st, evq, sm⟩ := s
  dsimp only at h ⊢
  simp only [PngCache.get]
  rw [h]

theorem get_eq_fail {K A : Type} [DecidableEq K] {s : PngCache K A} {k : K}
    {now : ℕ} (h : lookupKey s.cache k = none) :
    s.get k now none = ⟨none, s, true⟩ := by
  obtain ⟨st, evq, sm⟩ := s
  dsimp only at h
  simp only [PngCache.get]
  rw [h]

theorem get_eq_load {K A : Type} [DecidableEq K] {s : PngCache K A} {k : K}
    {now : ℕ} {img : A} (h : lookupKey s.cache k = none) :
    s.get k now (some img)
      = ⟨some img,
         ⟨insertEntry
            (if s.max_size ≤ s.cache.length then
              match s.eviction_queue.get_oldest with
              | some oldKey => removeKey s.cache oldKey
              | none => s.cache
             else s.cache) k ⟨img, 1, now⟩,
          s.eviction_queue.update k, s.max_size⟩,
         true⟩ := by
  obtain ⟨st, evq, sm⟩ := s
  dsimp only at h ⊢
  simp only [PngCache.get]
  rw [h]

theorem lookupKey_sweepTick_some {K A : Type} [DecidableEq K]
    {s : PngCache K A} {now : ℕ} {j : K} {e : CacheEntry A}
    (hnd : (s.cache.map Prod.fst).Nodup)
    (h : lookupKey (s.sweepTick now).cache j = some e) :
    lookupKey s.cache j = some e ∧ now - e.last_accessed < 3600 := by
  rw [sweepTick_cache hnd] at h
  have hmem := lookupKey_mem h
  rcases List.mem_filter.mp hmem with ⟨hm1, hm2⟩
  exact ⟨lookupKey_of_mem_nodup hnd hm1, by simpa using hm2⟩

theorem lookupKey_sweepTick_of_fresh {K A : Type} [DecidableEq K]
    {s : PngCache K A} {now : ℕ} {j : K} {e : CacheEntry A}
    (hnd : (s.cache.map Prod.fst).Nodup)
    (h : lookupKey s.cache j = some e) (hfresh : now - e.last_accessed < 3600) :
    lookupKey (s.sweepTick now).cache j = some e := by
  rw [sweepTick_cache hnd]
  apply lookupKey_of_mem_nodup
  · exact hnd.sublist ((List.filter_sublist s.cache).map Prod.fst)
  · exact List.mem_filter.mpr ⟨lookupKey_mem h, by simpa using hfresh⟩

theorem count_append_singleton_eq_one {K : Type} [DecidableEq K]
    {l : List K} {k : K} (h : k ∉ l) : (l ++ [k]).count k = 1 := by
  rw [List.count_append]
  rw [List.count_eq_zero.mpr h]
  simp

theorem getLast?_append_singleton {K : Type} {l : List K} {k : K} :
    (l ++ [k]).getLast? = some k := by
  rw [List.getLast?_concat]

/-! Claim theorems. -/

/-- Claim C1: for every cache constructed with a capacity `max_size` (a
positive integer per spec §6) and every state reachable by any sequence of
`get` calls — hits, successful loads and failed loads alike — interleaved
with background sweeper ticks at non-decreasing times, the store holds at
most `max_size` entries, so `len() <= max_size` after each `get` call
returns. -/
theorem claim_C1_capacity_bound {K A : Type} [DecidableEq K] {max t : ℕ}
    {s : PngCache K A} (hmax : 1 ≤ max) (hr : Reach max s t) :
    (PngCache.len s).1 ≤ max :=
  (Reach_CacheInv hr hmax).cache_le

theorem claim_C1_capacity_bound_witness :
    (PngCache.len (((PngCache.new ℕ ℕ 2).get 0 1 (some 5)).state)).1 ≤ 2 :=
  claim_C1_capacity_bound (by decide) (Reach.get Reach.new (by decide))

/-- Claim C4: on a queue state with no duplicate key, at most `max_size`
elements and a positive capacity, `EvictionQueue::update` (the generic copy
in `utils/mod.rs`) removes any prior occurrence of the key, places the key
exactly once at the back, pops exactly the front element — and only when the
push would otherwise exceed `max_size` — and leaves the queue duplicate-free
with at most `max_size` elements. -/
theorem claim_C4_update_spec :
    ∀ (K : Type) [inst : DecidableEq K] (s : CacheUtils.EvictionQueue K) (k : K),
      1 ≤ s.max_size → s.queue.Nodup → s.queue.length ≤ s.max_size →
      ((s.update k).queue.Nodup ∧
       (s.update k).queue.length ≤ s.max_size ∧
       (s.update k).queue.getLast? = some k ∧
       (s.update k).queue.count k = 1 ∧
       (k ∈ s.queue → (s.update k).queue = removeFirst s.queue k ++ [k]) ∧
       (k ∉ s.queue → s.queue.length < s.max_size →
          (s.update k).queue = s.queue ++ [k]) ∧
       (k ∉ s.queue → s.queue.length = s.max_size →
          (s.update k).queue = s.queue.tail ++ [k])) := by
  intro K inst s k hmax hnd hlen
  obtain ⟨q, m⟩ := s
  dsimp only at hmax hnd hlen ⊢
  have hbr : (CacheUtils.EvictionQueue.update ⟨q, m⟩ k).queue
      = (PngCacheFile.EvictionQueue.update ⟨q, m⟩ k).queue := rfl
  by_cases hk : k ∈ q
  · have he : (CacheUtils.EvictionQueue.update ⟨q, m⟩ k).queue
        = removeFirst q k ++ [k] := by
      rw [hbr]
      exact update_queue_of_mem hmax hlen hk
    rw [he]
    refine ⟨nodup_append_singleton (hnd.sublist removeFirst_sublist)
        (not_mem_removeFirst hnd), ?_, getLast?_append_singleton,
      count_append_singleton_eq_one (not_mem_removeFirst hnd),
      fun _ => rfl, fun hnk _ => absurd hk hnk, fun hnk _ => absurd hk hnk⟩
    rw [List.length_append, List.length_singleton]
    have := length_removeFirst_add_one hk
    omega
  · by_cases hfull : m ≤ q.length
    · have hql : q.length = m := le_antisymm hlen hfull
      have he : (CacheUtils.EvictionQueue.update ⟨q, m⟩ k).queue
          = q.tail ++ [k] := by
        rw [hbr]
        exact update_queue_of_not_mem_full hfull hk
      rw [he]
      have hkt : k ∉ q.tail := fun h => hk ((List.tail_sublist q).mem h)
      refine ⟨nodup_append_singleton (hnd.sublist (List.tail_sublist q)) hkt,
        ?_, getLast?_append_singleton, count_append_singleton_eq_one hkt,
        fun hmem => absurd hmem hk, fun _ hlt => absurd hql (by omega),
        fun _ _ => rfl⟩
      rw [List.length_append, List.length_singleton, List.length_tail]
      omega
    · have hlt : q.length < m := Nat.lt_of_not_le hfull
      have he : (CacheUtils.EvictionQueue.update ⟨q, m⟩ k).queue
          = q ++ [k] := by
        rw [hbr]
        exact update_queue_of_not_mem_lt hlt hk
      rw [he]
      refine ⟨nodup_append_singleton hnd hk, ?_, getLast?_append_singleton,
        count_append_singleton_eq_one hk, fun hmem => absurd hmem hk,
        fun _ _ => rfl, fun _ heq => absurd heq (by omega)⟩
      rw [List.length_append, List.length_singleton]
      omega

theorem claim_C4_update_spec_witness :
    ((⟨[1, 2], 2⟩ : CacheUtils.EvictionQueue ℕ).update 3).queue.Nodup :=
  (claim_C4_update_spec ℕ ⟨[1, 2], 2⟩ 3 (by decide) (by decide) (by decide)).1

/-- Claim C5: a `get` whose miss path reaches the loader and whose loader
fails returns `none` and leaves the whole cache state — store mapping and
eviction queue — exactly as it was before the call. -/
theorem claim_C5_load_failure_noop {K A : Type} [DecidableEq K]
    (s : PngCache K A) (k : K) (now : ℕ)
    (h : lookupKey s.cache k = none) :
    (s.get k now none).result = none ∧ (s.get k now none).state = s := by
  rw [get_eq_fail h]
  exact ⟨rfl, rfl⟩

theorem claim_C5_load_failure_noop_witness :
    ((PngCache.new ℕ ℕ 2).get 0 5 none).result = none ∧
    ((PngCache.new ℕ ℕ 2).get 0 5 none).state = PngCache.new ℕ ℕ 2 :=
  claim_C5_load_failure_noop (PngCache.new ℕ ℕ 2) 0 5 rfl

/-- Claim C8: along every code path of `PngCache::get` / `EasyPngCache::get`
the store lock is acquired while holding nothing and the queue lock is
acquired while holding exactly the store lock — never the reverse order —
and both paths of the sweeper's `cleanup_old_entries` touch only the store
lock, so a lock-order inversion between the two locks cannot arise. -/
theorem claim_C8_lock_order :
    lockOrderOk [] pngGetLockEvents = true ∧
    lockOrderOk [] sweeperLockEvents = true ∧
    lockOrderOk [] sweeperLockEventsNoremove = true ∧
    (∀ e ∈ sweeperLockEvents, e.res = LockRes.lstore) ∧
    (∀ e ∈ sweeperLockEventsNoremove, e.res = LockRes.lstore) := by
  refine ⟨rfl, rfl, rfl, ?_, ?_⟩ <;> decide

theorem fold_update_agree {K : Type} [DecidableEq K] :
    ∀ (ops : List K) (p : PngCacheFile.EvictionQueue K)
      (u : CacheUtils.EvictionQueue K),
      p.queue = u.queue → p.max_size = u.max_size →
      (ops.foldl PngCacheFile.EvictionQueue.update p).queue
        = (ops.foldl CacheUtils.EvictionQueue.update u).queue ∧
      (ops.foldl PngCacheFile.EvictionQueue.update p).max_size
        = (ops.foldl CacheUtils.EvictionQueue.update u).max_size := by
  intro ops
  induction ops with
  | nil =>
    intro p u hq hm
    exact ⟨hq, hm⟩
  | cons k ops ih =>
    intro p u hq hm
    rw [List.foldl_cons, List.foldl_cons]
    apply ih
    · show (p.update k).queue = (u.update k).queue
      rw [PngCacheFile.EvictionQueue.update, CacheUtils.EvictionQueue.update]
      rw [hq, hm]
    · show (p.update k).max_size = (u.update k).max_size
      rw [PngCacheFile.EvictionQueue.update, CacheUtils.EvictionQueue.update]
      rw [hm]

/-- Claim C9: the `EvictionQueue` private to `png_cache.rs` and the generic
one in `caches/utils` are extensionally equal: starting from `new(max_size)`,
any sequence of `update` calls leaves the two implementations with identical
queue contents in identical order, and `get_oldest` agrees. (The private copy
is monomorphic in png_cache's `CacheKey` in the source; the shared algorithm
is compared here at every key type with decidable equality.) -/
theorem claim_C9_eviction_queues_agree :
    ∀ (K : Type) [inst : DecidableEq K] (max : ℕ) (ops : List K),
      (ops.foldl PngCacheFile.EvictionQueue.update
          (PngCacheFile.EvictionQueue.new K max)).queue
        = (ops.foldl CacheUtils.EvictionQueue.update
            (CacheUtils.EvictionQueue.new K max)).queue ∧
      (ops.foldl PngCacheFile.EvictionQueue.update
          (PngCacheFile.EvictionQueue.new K max)).get_oldest
        = (ops.foldl CacheUtils.EvictionQueue.update
            (CacheUtils.EvictionQueue.new K max)).get_oldest := by
  intro K inst max ops
  have h := fold_update_agree ops (PngCacheFile.EvictionQueue.new K max)
    (CacheUtils.EvictionQueue.new K max) rfl rfl
  refine ⟨h.1, ?_⟩
  rw [PngCacheFile.EvictionQueue.get_oldest, CacheUtils.EvictionQueue.get_oldest,
    h.1]

/-- Claim C10: the introspection operations are pure reads: `get_stats`
returns `some (access_count, last_accessed)` exactly for keys present in the
store and returns the stored values, and `get_stats`, `len` and `is_empty`
all leave the cache state — every entry, the store mapping and the eviction
queue — unchanged. -/
theorem claim_C10_introspection_pure {K A : Type} [DecidableEq K]
    (s : PngCache K A) (k : K) :
    (s.get_stats k).1
        = (lookupKey s.cache k).map (fun e => (e.access_count, e.last_accessed)) ∧
    (((s.get_stats k).1).isSome = true ↔ k ∈ s.cache.map Prod.fst) ∧
    (s.get_stats k).2 = s ∧
    s.len.1 = s.cache.length ∧ s.len.2 = s ∧
    s.is_empty.1 = s.cache.isEmpty ∧ s.is_empty.2 = s := by
  refine ⟨rfl, ?_, rfl, rfl, rfl, rfl, rfl⟩
  show ((lookupKey s.cache k).map
      (fun e => (e.access_count, e.last_accessed))).isSome = true
    ↔ k ∈ s.cache.map Prod.fst
  rw [Option.isSome_map']
  exact lookupKey_isSome

/-- Claim C3: if a `get(k)` call returns an artifact, an immediately
following `get(k)` on the resulting state — under any loader, even one that
would fail — returns an equal artifact and does not invoke the loader. -/
theorem claim_C3_hit_after_get {K A : Type} [DecidableEq K]
    (s : PngCache K A) (k : K) (now now2 : ℕ) (loader loader2 : Option A)
    (a : A) (h : (s.get k now loader).result = some a) :
    ((s.get k now loader).state.get k now2 loader2).result = some a ∧
    ((s.get k now loader).state.get k now2 loader2).loaderInvoked = false := by
  have hpost : ∃ e2 : CacheEntry A,
      lookupKey (s.get k now loader).state.cache k = some e2 ∧ e2.image = a := by
    rcases hlk : lookupKey s.cache k with _ | e
    · rcases loader with _ | img
      · rw [get_eq_fail hlk] at h
        exact absurd h (by simp)
      · rw [get_eq_load hlk] at h ⊢
        dsimp only at h ⊢
        refine ⟨⟨img, 1, now⟩, lookupKey_insertEntry_self, ?_⟩
        injection h
    · rw [get_eq_hit hlk] at h ⊢
      dsimp only at h ⊢
      refine ⟨⟨e.image, e.access_count + 1, now⟩, ?_, ?_⟩
      · rw [lookupKey_touchKey_self, hlk]
        rfl
      · injection h
  rcases hpost with ⟨e2, he2, him⟩
  rw [get_eq_hit he2]
  refine ⟨?_, rfl⟩
  dsimp only
  rw [him]

theorem claim_C3_hit_after_get_witness :
    (((PngCache.new ℕ ℕ 2).get 0 0 (some 5)).state.get 0 1 none).result
      = some 5 ∧
    (((PngCache.new ℕ ℕ 2).get 0 0 (some 5)).state.get 0 1 none).loaderInvoked
      = false :=
  claim_C3_hit_after_get (PngCache.new ℕ ℕ 2) 0 0 1 (some 5) none 5 rfl

/-- Claim C6: on a store with duplicate-free keys, one sweep tick at time
`now` keeps exactly the entries whose idle time `now - last_accessed` is
below the 3600-second TTL — an entry is in the store after the tick iff it
was there before with idle time strictly less than 3600 — and the sweep
leaves the eviction queue untouched. -/
theorem claim_C6_sweep_exact_ttl {K A : Type} [DecidableEq K]
    (s : PngCache K A) (now : ℕ) (hnd : (s.cache.map Prod.fst).Nodup) :
    (∀ k e, lookupKey (s.sweepTick now).cache k = some e ↔
      (lookupKey s.cache k = some e ∧ now - e.last_accessed < 3600)) ∧
    (s.sweepTick now).eviction_queue = s.eviction_queue := by
  refine ⟨?_, rfl⟩
  intro k e
  constructor
  · intro h
    exact lookupKey_sweepTick_some hnd h
  · rintro ⟨h1, h2⟩
    exact lookupKey_sweepTick_of_fresh hnd h1 h2

theorem claim_C6_sweep_exact_ttl_witness :
    lookupKey ((⟨[(0, ⟨5, 1, 0⟩), (1, ⟨6, 1, 4000⟩)], ⟨[0, 1], 2⟩, 2⟩ :
        PngCache ℕ ℕ).sweepTick 4000).cache 1 = some ⟨6, 1, 4000⟩ ↔
      (lookupKey (⟨[(0, ⟨5, 1, 0⟩), (1, ⟨6, 1, 4000⟩)], ⟨[0, 1], 2⟩, 2⟩ :
        PngCache ℕ ℕ).cache 1 = some ⟨6, 1, 4000⟩ ∧ 4000 - 4000 < 3600) :=
  (claim_C6_sweep_exact_ttl
    (⟨[(0, ⟨5, 1, 0⟩), (1, ⟨6, 1, 4000⟩)], ⟨[0, 1], 2⟩, 2⟩ : PngCache ℕ ℕ)
    4000 (by decide)).1 1 ⟨6, 1, 4000⟩

/-- Claim C7: on a store with duplicate-free keys, a successful miss-load
creates its entry with `access_count = 1` and `last_accessed` equal to the
insertion time; a hit increments `access_count` by exactly one and refreshes
`last_accessed` to the hit time; and across a `get` step as well as a sweep
tick, the `access_count` of any surviving entry never decreases. -/
theorem claim_C7_access_metadata {K A : Type} [DecidableEq K]
    (s : PngCache K A) (k : K) (now : ℕ) (loader : Option A)
    (hnd : (s.cache.map Prod.fst).Nodup) :
    (∀ a, lookupKey s.cache k = none → loader = some a →
       lookupKey (s.get k now loader).state.cache k = some ⟨a, 1, now⟩) ∧
    (∀ e, lookupKey s.cache k = some e →
       lookupKey (s.get k now loader).state.cache k
         = some ⟨e.image, e.access_count + 1, now⟩) ∧
    (∀ j e e2, lookupKey s.cache j = some e →
       lookupKey (s.get k now loader).state.cache j = some e2 →
       e.access_count ≤ e2.access_count) ∧
    (∀ t2 j e e2, lookupKey s.cache j = some e →
       lookupKey (s.sweepTick t2).cache j = some e2 →
       e.access_count ≤ e2.access_count) := by
  refine ⟨?_, ?_, ?_, ?_⟩
  · intro a hlk hld
    subst hld
    rw [get_eq_load hlk]
    dsimp only
    exact lookupKey_insertEntry_self
  · intro e hlk
    rw [get_eq_hit hlk]
    dsimp only
    rw [lookupKey_touchKey_self, hlk]
    rfl
  · intro j e e2 hj hj2
    rcases hlk : lookupKey s.cache k with _ | e0
    · rcases loader with _ | img
      · rw [get_eq_fail hlk] at hj2
        dsimp only at hj2
        rw [hj] at hj2
        have he : e = e2 := by injection hj2
        rw [he]
      · rw [get_eq_load hlk] at hj2
        dsimp only at hj2
        by_cases hjk : j = k
        · rw [hjk, hlk] at hj
          exact absurd hj (by simp)
        · rw [lookupKey_insertEntry_ne hjk] at hj2
          by_cases hfull : s.max_size ≤ s.cache.length
          · rw [if_pos hfull] at hj2
            rcases hold : s.eviction_queue.get_oldest with _ | f
            · rw [hold] at hj2
              dsimp only at hj2
              rw [hj] at hj2
              have he : e = e2 := by injection hj2
              rw [he]
            · rw [hold] at hj2
              dsimp only at hj2
              by_cases hjf : j = f
              · rw [hjf, lookupKey_removeKey_self] at hj2
                exact absurd hj2 (by simp)
              · rw [lookupKey_removeKey_ne hjf, hj] at hj2
                have he : e = e2 := by injection hj2
                rw [he]
          · rw [if_neg hfull] at hj2
            rw [hj] at hj2
            have he : e = e2 := by injection hj2
            rw [he]
    · rw [get_eq_hit hlk] at hj2
      dsimp only at hj2
      by_cases hjk : j = k
      · subst hjk
        rw [lookupKey_touchKey_self, hj] at hj2
        have he : e2 = ⟨e.image, e.access_count + 1, now⟩ := by
          injection hj2 with hh
          exact hh.symm
        rw [he]
        exact Nat.le_succ _
      · rw [lookupKey_touchKey_ne hjk, hj] at hj2
        have he : e = e2 := by injection hj2
        rw [he]
  · intro t2 j e e2 hj hj2
    rcases lookupKey_sweepTick_some hnd hj2 with ⟨hj3, _⟩
    rw [hj] at hj3
    have he : e = e2 := by injection hj3
    rw [he]

theorem claim_C7_access_metadata_witness :
    lookupKey (((⟨[(0, ⟨5, 2, 0⟩)], ⟨[0], 2⟩, 2⟩ : PngCache ℕ ℕ).get 0 7
        none).state).cache 0 = some ⟨5, 3, 7⟩ :=
  (claim_C7_access_metadata (⟨[(0, ⟨5, 2, 0⟩)], ⟨[0], 2⟩, 2⟩ : PngCache ℕ ℕ)
    0 7 none (by decide)).2.1 ⟨5, 2, 0⟩ rfl

/-- Claim C2: on any reachable state (positive capacity per spec §6) whose
store holds exactly `max_size` entries, a missing `get` with a successful
load removes exactly one existing entry — the key reported by the
EvictionQueue's `get_oldest` at that instant, which is present in the store —
and then inserts the new entry; concretely, at capacity 2 the sequence
`get A, get B, get A, get C, get B` with an always-succeeding loader (run
`c2Run`, keys A,B,C as 0,1,2) ends with the store containing exactly
{C, B}. -/
theorem claim_C2_eviction_correct :
    (∀ (K A : Type) [inst : DecidableEq K] (max t now : ℕ) (s : PngCache K A)
       (k : K) (a : A),
       Reach max s t → 1 ≤ max → s.cache.length = max →
       lookupKey s.cache k = none →
       ∃ f, s.eviction_queue.get_oldest = some f ∧
         f ∈ s.cache.map Prod.fst ∧
         (s.get k now (some a)).state.cache
           = removeKey s.cache f ++ [(k, ⟨a, 1, now⟩)] ∧
         (removeKey s.cache f).length + 1 = s.cache.length) ∧
    c2Run.cache.map Prod.fst = [2, 1] := by
  constructor
  · intro K A inst max t now s k a hr hmax hfull hlk
    have hinv := Reach_CacheInv hr hmax
    obtain ⟨st, ⟨q, qm⟩, sm⟩ := s
    have h9 : sm = max := hinv.smax
    have h1 : (st.map Prod.fst).Nodup := hinv.nodup_cache
    have h3 : q.length ≤ max := hinv.queue_le
    have h5 : ∀ j ∈ st.map Prod.fst, j ∈ q := hinv.cache_sub
    dsimp only at hfull hlk ⊢
    have hknot : k ∉ st.map Prod.fst := lookupKey_eq_none.mp hlk
    have hperm : (st.map Prod.fst).Perm q :=
      keys_perm_queue_of_full h1 h3 hfull h5
    have hqlen : q.length = max := by
      rw [← hperm.length_eq, List.length_map, hfull]
    have hqne : q ≠ [] := by
      intro h
      rw [h] at hqlen
      simp only [List.length_nil] at hqlen
      omega
    rcases q with _ | ⟨f, qt⟩
    · exact absurd rfl hqne
    · have hf : f ∈ st.map Prod.fst :=
        hperm.mem_iff.mpr (List.mem_cons_self _ _)
      have hkrm : k ∉ (removeKey st f).map Prod.fst :=
        fun h => hknot (mem_keys_removeKey.mp h).1
      refine ⟨f, rfl, hf, ?_, length_removeKey_add_one h1 hf⟩
      show (PngCache.get ⟨st, ⟨f :: qt, qm⟩, sm⟩ k now (some a)).state.cache
          = removeKey st f ++ [(k, ⟨a, 1, now⟩)]
      have hfullle : sm ≤ st.length := by
        rw [h9, ← hfull]
      simp only [PngCache.get]
      rw [hlk]
      simp only [PngCacheFile.EvictionQueue.get_oldest, List.head?_cons,
        if_pos hfullle]
      rw [insertEntry, removeKey_of_not_mem hkrm]
  · rfl

theorem claim_C2_eviction_correct_witness :
    ∃ f, (((PngCache.new ℕ ℕ 1).get 0 0 (some 5)).state).eviction_queue.get_oldest
        = some f ∧
      f ∈ (((PngCache.new ℕ ℕ 1).get 0 0 (some 5)).state).cache.map Prod.fst ∧
      ((((PngCache.new ℕ ℕ 1).get 0 0 (some 5)).state).get 1 1 (some 6)).state.cache
        = removeKey (((PngCache.new ℕ ℕ 1).get 0 0 (some 5)).state).cache f
            ++ [(1, ⟨6, 1, 1⟩)] ∧
      (removeKey (((PngCache.new ℕ ℕ 1).get 0 0 (some 5)).state).cache f).length + 1
        = (((PngCache.new ℕ ℕ 1).get 0 0 (some 5)).state).cache.length :=
  claim_C2_eviction_correct.1 ℕ ℕ 1 0 1
    (((PngCache.new ℕ ℕ 1).get 0 0 (some 5)).state) 1 6
    (Reach.get Reach.new (by decide)) (by decide) (by decide) (by decide)
